import Mathlib

/-!
Verification of the SVG schematic connectivity analyzer of the circuit
viewer (`src/components/Layout.tsx`, `CircuitViewer`): geometry
extraction, proximity matching, breadth-first net tracing, highlight
save/restore, and component search filtering.

Numeric attribute values are modelled as exact rationals (the JS code
computes with IEEE doubles; every concrete input under test uses small
integers, where double arithmetic is exact).  DOM element reference
identity is modelled by a numeric index field on shapes.
-/

/-- A 2-D point in diagram space. -/
structure Point where
  x : ℚ
  y : ℚ
deriving DecidableEq, Repr

/-- Kind-specific geometry of an SVG shape, as read by
`getElementCoordinates`.  Numeric attributes are modelled as already
parsed rationals; the `path` kind keeps its raw `d` attribute string
because the extractor parses it with a regular expression.  A
polyline/polygon is modelled by the numeric token list parsed from its
`points` attribute (consumed pairwise by the extractor). -/
inductive Geom where
  | line (x1 y1 x2 y2 : ℚ)
  | path (d : String)
  | circle (cx cy r : ℚ)
  | rect (x y w h : ℚ)
  | poly (coords : List ℚ)
deriving DecidableEq, Repr

/-- An SVG element participating in tracing.  `idx` models DOM reference
identity (distinct elements never share an `idx`); `id` is the HTML id
attribute, used by the `circuit-bg` exclusion in `traceNet`; and
`closestGId` models `el.closest('g')?.id` — the id of the nearest
enclosing group element, `none` when the element is in no group — used
by the background-group exclusion in `traceNet`. -/
structure Shape where
  idx : Nat
  id : String
  geom : Geom
  closestGId : Option String
deriving DecidableEq, Repr

/-! ### A small regex engine

Exactly the constructs used by the two patterns in
`getElementCoordinates`'s path branch:
`[ML]?\s*-?\d+(\.\d+)?\s*,?\s*-?\d+(\.\d+)?` (global) and
`-?\d+(\.\d+)?` (global).  `star` is a greedy Kleene star over a character
class (all stars in these patterns are of that form), which keeps the
matcher structurally recursive. -/

/-- Regular-expression AST: character class, concatenation, greedy
option, greedy star over a character class. -/
inductive Rx where
  | cls (p : Char → Bool)
  | seq (a b : Rx)
  | opt (a : Rx)
  | star (p : Char → Bool)

/-- Greedy backtracking for `star p` on input `s`: try handing the
continuation the leftover after `n` consumed characters first, then
shorter runs (JavaScript backtracking order: longest first). -/
def matchStarGo (s : List Char) (k : List Char → Option (List Char)) :
    Nat → Option (List Char)
  | 0 => k s
  | n + 1 =>
    match k (s.drop (n + 1)) with
    | some r => some r
    | none => matchStarGo s k n

/-- Backtracking matcher in continuation-passing style: `matchRx r s k`
matches `r` against a prefix of `s` and calls `k` on the leftover input;
alternatives are tried in JavaScript order (prefer consuming for `?`,
longest run first for `*`), and the first overall success wins. -/
def matchRx : Rx → List Char → (List Char → Option (List Char)) → Option (List Char)
  | .cls p, s, k =>
    match s with
    | [] => none
    | c :: rest => if p c then k rest else none
  | .seq a b, s, k => matchRx a s (fun s1 => matchRx b s1 k)
  | .opt a, s, k =>
    match matchRx a s k with
    | some r => some r
    | none => k s
  | .star p, s, k => matchStarGo s k ((s.takeWhile p).length)

/-- One global-scan step with explicit fuel (structural, so that concrete
inputs evaluate by kernel reduction).  Mirrors JavaScript
`String.match(/.../g)`: try a match at the current position; on success
record the matched text and resume after it, otherwise slide one
character right.  The patterns in use never match the empty string, so a
successful match always consumes at least one character. -/
def scanAllGo (r : Rx) : Nat → List Char → List (List Char)
  | 0, _ => []
  | _ + 1, [] => []
  | fuel + 1, c :: rest =>
    match matchRx r (c :: rest) some with
    | some leftover =>
      if leftover.length < rest.length + 1 then
        ((c :: rest).take (rest.length + 1 - leftover.length)) :: scanAllGo r fuel leftover
      else
        scanAllGo r fuel rest
    | none => scanAllGo r fuel rest

/-- All matches of `r` in `s`, left to right, non-overlapping. -/
def scanAll (r : Rx) (s : List Char) : List (List Char) :=
  scanAllGo r s.length s

/-- Whitespace class `\s` (the characters relevant to SVG path data). -/
def isWs (c : Char) : Bool := c = ' ' || c = '\t' || c = '\n' || c = '\r'

/-- Pattern `\.\d+` — a decimal point with its fraction digits. -/
def dotDigitsRx : Rx :=
  .seq (.cls (fun c => c = '.')) (.seq (.cls Char.isDigit) (.star Char.isDigit))

/-- The remaining digits and optional fraction after the first digit of a
numeral. -/
def numTailRx : Rx := .seq (.star Char.isDigit) (.opt dotDigitsRx)

/-- Pattern `-?\d+(\.\d+)?` — one signed decimal numeral. -/
def numRx : Rx :=
  .seq (.opt (.cls (fun c => c = '-'))) (.seq (.cls Char.isDigit) numTailRx)

/-- Everything of the coordinate-pair pattern after its first digit:
the rest of the first numeral, separators, and the second numeral. -/
def pairTailRx : Rx :=
  .seq (.star Char.isDigit)
    (.seq (.opt dotDigitsRx)
      (.seq (.star isWs)
        (.seq (.opt (.cls (fun c => c = ',')))
          (.seq (.star isWs)
            (.seq (.opt (.cls (fun c => c = '-')))
              (.seq (.cls Char.isDigit) numTailRx))))))

/-- The coordinate-pair pattern from its first (mandatory) digit on. -/
def digitStartRx : Rx := .seq (.cls Char.isDigit) pairTailRx

/-- The coordinate-pair pattern after the optional command letter and
leading whitespace: optional sign, then the digits. -/
def afterWsRx : Rx := .seq (.opt (.cls (fun c => c = '-'))) digitStartRx

/-- The coordinate-pair pattern after the optional command letter. -/
def afterMLRx : Rx := .seq (.star isWs) afterWsRx

/-- Pattern `[ML]?\s*-?\d+(\.\d+)?\s*,?\s*-?\d+(\.\d+)?` — the coordinate-pair
pattern scanned globally over a path's `d` attribute.  Note the `[ML]`
command letter is optional in the source pattern. -/
def pairRx : Rx :=
  .seq (.opt (.cls (fun c => c = 'M' || c = 'L'))) afterMLRx

/-- Value of a digit string (most significant first). -/
def digitsVal (l : List Char) : Nat :=
  l.foldl (fun acc c => acc * 10 + (c.toNat - '0'.toNat)) 0

/-- JavaScript `parseFloat` on the well-formed numerals produced by `numRx`:
optional sign, integer digits, optional fractional digits; exact
rational value. -/
def parseNum (l : List Char) : ℚ :=
  let neg := l.headD ' ' = '-'
  let l2 := if neg then l.tail else l
  let intPart := l2.takeWhile Char.isDigit
  let rest := l2.dropWhile Char.isDigit
  let fracPart := if rest.headD ' ' = '.' then rest.tail.takeWhile Char.isDigit else []
  let q : ℚ := (digitsVal intPart : ℚ) + (digitsVal fracPart : ℚ) / ((10 : ℚ) ^ fracPart.length)
  if neg then -q else q

/-- The path branch of `getElementCoordinates`: scan the `d` attribute
for coordinate pairs with `pairRx`, then pull the numerals out of each
match with `numRx`; a match with at least two numerals contributes a
point. -/
def pathPoints (d : String) : List Point :=
  (scanAll pairRx d.data).filterMap fun m =>
    match scanAll numRx m with
    | n1 :: n2 :: _ => some ⟨parseNum n1, parseNum n2⟩
    | _ => none

/-- The polyline/polygon branch: consume the numeric token list pairwise;
a trailing unpaired coordinate is dropped. -/
def pairUp : List ℚ → List Point
  | x :: y :: rest => ⟨x, y⟩ :: pairUp rest
  | _ => []

/-- The source's `getElementCoordinates`: the characteristic terminal points of a
shape (both endpoints of a line; regex-scanned pairs of a path; center
and four cardinal points of a circle; corners and edge midpoints of a
rectangle; the pairwise vertices of a polyline/polygon). -/
def getElementCoordinates (s : Shape) : List Point :=
  match s.geom with
  | .line x1 y1 x2 y2 => [⟨x1, y1⟩, ⟨x2, y2⟩]
  | .path d => pathPoints d
  | .circle cx cy r =>
      [⟨cx, cy⟩, ⟨cx + r, cy⟩, ⟨cx - r, cy⟩, ⟨cx, cy + r⟩, ⟨cx, cy - r⟩]
  | .rect x y w h =>
      [⟨x, y⟩, ⟨x + w, y⟩, ⟨x, y + h⟩, ⟨x + w, y + h⟩,
       ⟨x + w / 2, y⟩, ⟨x + w / 2, y + h⟩, ⟨x, y + h / 2⟩, ⟨x + w, y + h / 2⟩]
  | .poly coords => pairUp coords

/-- Squared Euclidean distance. -/
def sqDist (p1 p2 : Point) : ℚ := (p1.x - p2.x) ^ 2 + (p1.y - p2.y) ^ 2

/-- The source's `arePointsClose`: the source computes
`Math.sqrt((x1-x2)^2 + (y1-y2)^2) < threshold`.  Over the rationals the
square root of a nonnegative number is `< t` iff `0 < t` and the number
is `< t^2`, which is the decidable form used here (default threshold 6,
as in the source). -/
def arePointsClose (p1 p2 : Point) (threshold : ℚ := 6) : Bool :=
  decide (0 < threshold ∧ sqDist p1 p2 < threshold ^ 2)

/-- The source's `checkConnectivity`: the nested loop returns `p1` — a point
of `el1`'s list — at the first close pair in scan order, or `null`. -/
def checkConnectivity (el1 el2 : Shape) : Option Point :=
  (getElementCoordinates el1).find? fun p1 =>
    (getElementCoordinates el2).any fun p2 => arePointsClose p1 p2

/-- The mutable state of `traceNet`'s breadth-first walk: the `net`
visited set (insertion-ordered, like a JS `Set`), the FIFO `queue`, and
the collected junction `points`. -/
structure TraceState where
  net : List Shape
  queue : List Shape
  points : List Point
deriving DecidableEq, Repr

/-- One step of `traceNet`'s inner `for` loop, expanding `current`
against candidate `el`: skip the designated background element
(`id === 'circuit-bg'`) and any element nested in a group with id
`background` (`el.closest('g')?.id === 'background'` — the source's
`el.tagName === 'g'` disjunct needs no model, since grouping containers
are not shape elements), skip already-visited elements; otherwise a
close point pair adds `el` to the net and the queue and records the
junction point. -/
def scanStep (current : Shape) (st : TraceState) (el : Shape) : TraceState :=
  if el.id = "circuit-bg" ∨ el.closestGId = some "background" then st
  else if el ∈ st.net then st
  else
    match checkConnectivity current el with
    | some p => ⟨st.net ++ [el], st.queue ++ [el], st.points ++ [p]⟩
    | none => st

/-- The `while (queue.length > 0)` loop of `traceNet`, with explicit
fuel counting loop iterations; `none` only when the fuel runs out with a
nonempty queue.  `traceNet` supplies fuel `|universe| + 1`, which always
suffices (each element is enqueued at most once). -/
def bfs (univ : List Shape) : Nat → TraceState → Option (List Shape × List Point)
  | 0, st => if st.queue.isEmpty then some (st.net, st.points) else none
  | fuel + 1, st =>
    match st.queue with
    | [] => some (st.net, st.points)
    | current :: rest => bfs univ fuel (univ.foldl (scanStep current) ⟨st.net, rest, st.points⟩)

/-- The source's `traceNet`: seed the net and the queue with the start element and run
the walk over the shape universe. -/
def traceNet (startElement : Shape) (univ : List Shape) :
    Option (List Shape × List Point) :=
  bfs univ (univ.length + 1) ⟨[startElement], [startElement], []⟩

/-- The walk `bfs` instrumented with the list of elements popped from the queue,
i.e. the shapes the walk actually expands, in processing order.  Pure
instrumentation: its first component is `bfs` (lemma `bfsVisits_fst`). -/
def bfsVisits (univ : List Shape) :
    Nat → TraceState → List Shape → Option ((List Shape × List Point) × List Shape)
  | 0, st, vs => if st.queue.isEmpty then some ((st.net, st.points), vs) else none
  | fuel + 1, st, vs =>
    match st.queue with
    | [] => some ((st.net, st.points), vs)
    | current :: rest =>
      bfsVisits univ fuel (univ.foldl (scanStep current) ⟨st.net, rest, st.points⟩)
        (vs ++ [current])


/-- JavaScript `a || b` for a possibly-absent string attribute value:
the default is used when the value is absent or empty (falsy). -/
def jsOr (o : Option String) (d : String) : String :=
  match o with
  | some s => if s = "" then d else s
  | none => d

/-- JavaScript truthiness of a possibly-absent string. -/
def isTruthy (o : Option String) : Bool :=
  match o with
  | some s => !(s = "")
  | none => false

/-- The style-relevant mutable state of one SVG element: presentation
attributes (`none` means the attribute is absent), the `data-orig*`
dataset slots, the `data-highlighted` marker and the inline filter
style. -/
structure ElemStyle where
  stroke : Option String
  strokeWidth : Option String
  fill : Option String
  origStroke : Option String
  origWidth : Option String
  origFill : Option String
  highlighted : Bool
  filter : String
deriving DecidableEq, Repr

/-- The per-element body of the net-highlight loop in `handleSvgClick`:
save `stroke`, `stroke-width` and `fill` into the dataset slots when the
slot is not already set (with the `'black'`, `'1'`, `'none'` defaults
of the source), then apply the neon highlight styling. -/
def applyHighlight (s : ElemStyle) : ElemStyle :=
  let s1 := if isTruthy s.origStroke then s
            else { s with origStroke := some (jsOr s.stroke "black") }
  let s2 := if isTruthy s1.origWidth then s1
            else { s1 with origWidth := some (jsOr s1.strokeWidth "1") }
  let s3 := if isTruthy s2.origFill then s2
            else { s2 with origFill := some (jsOr s2.fill "none") }
  { s3 with stroke := some "#00ff9d", strokeWidth := some "3",
            filter := "drop-shadow(0 0 5px #00ff9d)", highlighted := true }

/-- The per-element body of `clearHighlights`: write the saved values
back (with the `'black'` and `'1'` fallbacks), clear the filter and the
marker, and restore `fill` when a saved fill is present.  The dataset
slots themselves are left in place by the source. -/
def clearHighlightEl (s : ElemStyle) : ElemStyle :=
  { s with stroke := some (jsOr s.origStroke "black"),
           strokeWidth := some (jsOr s.origWidth "1"),
           filter := "",
           highlighted := false,
           fill := match s.origFill with
                   | some f => if f = "" then s.fill else some f
                   | none => s.fill }

/-- A component descriptor row from the external AI extraction step; all
fields may be absent. -/
structure CircuitComponent where
  designator : Option String
  type : Option String
  value : Option String
  description : Option String
deriving DecidableEq, Repr

/-- JavaScript `toLowerCase` (character-wise lower-casing; the
designators, types and queries in play are ASCII, where this agrees with
JS). -/
def strLower (s : String) : String := ⟨s.data.map Char.toLower⟩

/-- Field access `field?.toLowerCase() || ''` — the lower-cased field, empty when the
field is absent. -/
def fieldLower (o : Option String) : String := strLower (o.getD "")

/-- Does `needle` occur contiguously in `hay` (at this position or
later)? -/
def hasSub : List Char → List Char → Bool
  | [], needle => needle.isEmpty
  | c :: t, needle => needle.isPrefixOf (c :: t) || hasSub t needle

/-- JavaScript `String.prototype.includes`: contiguous substring
containment. -/
def strIncludes (hay needle : String) : Bool := hasSub hay.data needle.data

/-- The source's `filteredComponents`: an empty query returns the component list
unchanged; otherwise keep the components one of whose four metadata
fields contains the lower-cased query. -/
def filteredComponents (components : List CircuitComponent) (searchQuery : String) :
    List CircuitComponent :=
  if searchQuery = "" then components
  else
    components.filter fun c =>
      strIncludes (fieldLower c.designator) (strLower searchQuery) ||
      strIncludes (fieldLower c.type) (strLower searchQuery) ||
      strIncludes (fieldLower c.value) (strLower searchQuery) ||
      strIncludes (fieldLower c.description) (strLower searchQuery)

/-- The dimming pass of the search-highlight effect: with an active
query, a component id with no match in the filtered list gets opacity
`0.3`, everything else gets `1`. -/
def dimOpacity (components : List CircuitComponent) (searchQuery : String)
    (id : String) : String :=
  if ¬ searchQuery = "" ∧
      ∀ c ∈ filteredComponents components searchQuery, ¬ c.designator = some id
  then "0.3" else "1"

/-- Collapse runs of whitespace to a single space (`prevWs` records
whether the previous kept character was part of a whitespace run). -/
def collapseWsGo (prevWs : Bool) : List Char → List Char
  | [] => []
  | c :: rest =>
    if isWs c then
      if prevWs then collapseWsGo true rest
      else ' ' :: collapseWsGo true rest
    else c :: collapseWsGo false rest

/-- Modelled from the spec: the spec describes search-match computation
against "a normalized (lower-cased, whitespace-collapsed) query"; the
source performs no whitespace collapsing, so this definition follows the
spec wording (lower-case, then collapse whitespace runs) for comparison
with `filteredComponents`. -/
def specNormalizeQuery (q : String) : String :=
  ⟨collapseWsGo false (strLower q).data⟩

/-- Modelled from the spec: the match set per the spec wording — same
substring containment over the four fields, but against the
whitespace-collapsed normalized query. -/
def specFilteredComponents (components : List CircuitComponent) (searchQuery : String) :
    List CircuitComponent :=
  if searchQuery = "" then components
  else
    components.filter fun c =>
      strIncludes (fieldLower c.designator) (specNormalizeQuery searchQuery) ||
      strIncludes (fieldLower c.type) (specNormalizeQuery searchQuery) ||
      strIncludes (fieldLower c.value) (specNormalizeQuery searchQuery) ||
      strIncludes (fieldLower c.description) (specNormalizeQuery searchQuery)

/-- The highlighted-set update of `handleSvgClick`: start from the
previous highlights in multi-select mode (from the empty list otherwise,
after `clearHighlights` ran), then append each net element not already
present. -/
def updateHighlights (isMultiSelect : Bool) (prev netElements : List Shape) :
    List Shape :=
  netElements.foldl (fun acc el => if el ∈ acc then acc else acc ++ [el])
    (if isMultiSelect then prev else [])

/-! ### General lemmas about the embedded operations -/

/-- On a nonempty all-digit numeral, `parseNum` is just the digit
value. -/
theorem parseNum_digits (c : Char) (l : List Char) (hc : c.isDigit = true)
    (hl : ∀ x ∈ l, x.isDigit = true) : parseNum (c :: l) = digitsVal (c :: l) := by
  have hall : ∀ x ∈ c :: l, Char.isDigit x = true := by
    intro x hx
    rcases List.mem_cons.mp hx with h | h
    · exact h ▸ hc
    · exact hl x h
  have hcd : ¬ c = '-' := by
    intro h
    rw [h] at hc
    exact absurd hc (by decide)
  have htw : (c :: l).takeWhile Char.isDigit = c :: l :=
    List.takeWhile_eq_self_iff.mpr hall
  have hdw : (c :: l).dropWhile Char.isDigit = [] :=
    List.dropWhile_eq_nil_iff.mpr hall
  simp only [parseNum, List.headD_cons, hcd, if_false, htw, hdw]
  norm_num [digitsVal]


/-- Characterization of `List.find?` success: the found element splits
the list, satisfies the predicate, and everything before it fails the
predicate. -/
theorem find?_first {α : Type} (p : α → Bool) (l : List α) (a : α)
    (h : l.find? p = some a) :
    ∃ l1 l2, l = l1 ++ a :: l2 ∧ p a = true ∧ ∀ x ∈ l1, p x = false := by
  induction l with
  | nil => simp [List.find?] at h
  | cons y t ih =>
    cases hpy : p y with
    | true =>
      rw [List.find?_cons_of_pos _ hpy] at h
      injection h with h
      subst h
      exact ⟨[], t, rfl, hpy, by simp⟩
    | false =>
      rw [List.find?_cons_of_neg _ (by simp [hpy])] at h
      obtain ⟨l1, l2, heq, hpa, hl1⟩ := ih h
      refine ⟨y :: l1, l2, by rw [heq]; rfl, hpa, ?_⟩
      intro x hx
      rcases List.mem_cons.mp hx with h1 | h1
      · exact h1 ▸ hpy
      · exact hl1 x h1

/-- The squared distance is symmetric. -/
theorem sqDist_comm (p q : Point) : sqDist p q = sqDist q p := by
  simp only [sqDist]
  ring

/-- Proximity is symmetric. -/
theorem arePointsClose_comm (p q : Point) (t : ℚ) :
    arePointsClose p q t = arePointsClose q p t := by
  simp only [arePointsClose, sqDist_comm]

/-- A successful `checkConnectivity` returns a point of the first
shape's list having a close partner on the second shape's list. -/
theorem checkConnectivity_eq_some (e1 e2 : Shape) (p : Point)
    (h : checkConnectivity e1 e2 = some p) :
    p ∈ getElementCoordinates e1 ∧
      ∃ q ∈ getElementCoordinates e2, arePointsClose p q = true := by
  unfold checkConnectivity at h
  refine ⟨List.mem_of_find?_eq_some h, ?_⟩
  have hp := @List.find?_some _ _ _ _ h
  exact List.any_eq_true.mp hp

/-- The check `checkConnectivity` succeeds exactly when some pair of points of the
two shapes is close. -/
theorem checkConnectivity_isSome_iff (e1 e2 : Shape) :
    (checkConnectivity e1 e2).isSome = true ↔
      ∃ p ∈ getElementCoordinates e1, ∃ q ∈ getElementCoordinates e2,
        arePointsClose p q = true := by
  unfold checkConnectivity
  rw [List.find?_isSome]
  constructor
  · rintro ⟨x, hx, hpx⟩
    exact ⟨x, hx, List.any_eq_true.mp hpx⟩
  · rintro ⟨x, hx, q, hq, hcl⟩
    exact ⟨x, hx, List.any_eq_true.mpr ⟨q, hq, hcl⟩⟩

/-- Whether `checkConnectivity` succeeds is symmetric in its two
arguments (the returned point is not). -/
theorem checkConnectivity_symm (e1 e2 : Shape) :
    (checkConnectivity e1 e2).isSome = true ↔
      (checkConnectivity e2 e1).isSome = true := by
  rw [checkConnectivity_isSome_iff, checkConnectivity_isSome_iff]
  constructor
  · rintro ⟨p, hp, q, hq, h⟩
    exact ⟨q, hq, p, hp, by rwa [arePointsClose_comm]⟩
  · rintro ⟨p, hp, q, hq, h⟩
    exact ⟨q, hq, p, hp, by rwa [arePointsClose_comm]⟩

/-- Specification of one full inner-loop pass of the walk: folding
`scanStep current` over a candidate list appends the same block `d` of
newly discovered shapes to the net and the queue, appends junction
points all drawn from `current`'s point list, and the block is
duplicate-free, drawn from the candidate list, and disjoint from the
previous net. -/
theorem foldScan_spec (current : Shape) (l : List Shape) (st : TraceState) :
    ∃ d ps,
      List.foldl (scanStep current) st l =
        ⟨st.net ++ d, st.queue ++ d, st.points ++ ps⟩ ∧
      d.Nodup ∧ (∀ x ∈ d, x ∈ l ∧ x ∉ st.net) ∧
      ∀ p ∈ ps, p ∈ getElementCoordinates current := by
  induction l generalizing st with
  | nil => exact ⟨[], [], by simp, by simp, by simp, by simp⟩
  | cons x t ih =>
    rw [List.foldl_cons]
    by_cases hbg : x.id = "circuit-bg" ∨ x.closestGId = some "background"
    · have hs : scanStep current st x = st := by
        unfold scanStep
        rw [if_pos hbg]
      rw [hs]
      obtain ⟨d, ps, heq, hnd, hmem, hps⟩ := ih st
      exact ⟨d, ps, heq, hnd,
        fun y hy => ⟨List.mem_cons_of_mem x (hmem y hy).1, (hmem y hy).2⟩, hps⟩
    · by_cases hin : x ∈ st.net
      · have hs : scanStep current st x = st := by simp [scanStep, hbg, hin]
        rw [hs]
        obtain ⟨d, ps, heq, hnd, hmem, hps⟩ := ih st
        exact ⟨d, ps, heq, hnd,
          fun y hy => ⟨List.mem_cons_of_mem x (hmem y hy).1, (hmem y hy).2⟩, hps⟩
      · cases hcc : checkConnectivity current x with
        | none =>
          have hs : scanStep current st x = st := by simp [scanStep, hbg, hin, hcc]
          rw [hs]
          obtain ⟨d, ps, heq, hnd, hmem, hps⟩ := ih st
          exact ⟨d, ps, heq, hnd,
            fun y hy => ⟨List.mem_cons_of_mem x (hmem y hy).1, (hmem y hy).2⟩, hps⟩
        | some p =>
          have hs : scanStep current st x =
              ⟨st.net ++ [x], st.queue ++ [x], st.points ++ [p]⟩ := by
            simp [scanStep, hbg, hin, hcc]
          rw [hs]
          obtain ⟨d, ps, heq, hnd, hmem, hps⟩ :=
            ih ⟨st.net ++ [x], st.queue ++ [x], st.points ++ [p]⟩
          refine ⟨x :: d, p :: ps, ?_, ?_, ?_, ?_⟩
          · rw [heq]
            simp
          · rw [List.nodup_cons]
            exact ⟨fun hxd => (hmem x hxd).2 (by simp), hnd⟩
          · intro y hy
            rcases List.mem_cons.mp hy with h1 | h1
            · rw [h1]
              exact ⟨List.mem_cons_self x t, hin⟩
            · obtain ⟨h2, h3⟩ := hmem y h1
              exact ⟨List.mem_cons_of_mem x h2, fun hc => h3 (by simp [hc])⟩
          · intro q hq
            rcases List.mem_cons.mp hq with h1 | h1
            · exact h1 ▸ (checkConnectivity_eq_some current x p hcc).1
            · exact hps q h1

/-- Counting monotonicity along a pointwise implication. -/
theorem countP_le_of_imp {α : Type} (p q : α → Bool) (l : List α)
    (himp : ∀ a ∈ l, p a = true → q a = true) :
    List.countP p l ≤ List.countP q l := by
  induction l with
  | nil => simp
  | cons y t ih =>
    have ht := ih fun a ha hp => himp a (List.mem_cons_of_mem y ha) hp
    rw [List.countP_cons, List.countP_cons]
    cases hpy : p y with
    | true =>
      have hqy := himp y (List.mem_cons_self y t) hpy
      simp [hpy, hqy]
      omega
    | false =>
      cases hqy : q y with
      | true => simp [hpy, hqy]; omega
      | false => simp [hpy, hqy]; omega

/-- Strict counting decrease: a witness in the list satisfying `q` but
not `p` pushes the `p`-count strictly below the `q`-count. -/
theorem countP_succ_le {α : Type} (p q : α → Bool) (l : List α)
    (himp : ∀ a ∈ l, p a = true → q a = true) (x : α) (hx : x ∈ l)
    (hqx : q x = true) (hpx : p x = false) :
    List.countP p l + 1 ≤ List.countP q l := by
  induction l with
  | nil => simp at hx
  | cons y t ih
  =>
    rw [List.countP_cons, List.countP_cons]
    rcases List.mem_cons.mp hx with h1 | h1
    · have hpy : p y = false := h1 ▸ hpx
      have hqy : q y = true := h1 ▸ hqx
      have := countP_le_of_imp p q t fun a ha hp => himp a (List.mem_cons_of_mem y ha) hp
      simp [hpy, hqy]
      omega
    · have ht := ih (fun a ha hp => himp a (List.mem_cons_of_mem y ha) hp) h1
      cases hpy : p y with
      | true =>
        have hqy := himp y (List.mem_cons_self y t) hpy
        simp [hpy, hqy]
        omega
      | false =>
        cases hqy : q y with
        | true => simp [hpy, hqy]; omega
        | false => simp [hpy, hqy]; omega

/-- Appending a duplicate-free block of new elements to the visited set
shrinks the not-yet-visited count by the block's length. -/
theorem countP_ge_append (univ : List Shape) (net d : List Shape) (hd : d.Nodup)
    (hsub : ∀ x ∈ d, x ∈ univ ∧ x ∉ net) :
    List.countP (fun e => decide (e ∉ net ++ d)) univ + d.length ≤
      List.countP (fun e => decide (e ∉ net)) univ := by
  induction d generalizing net with
  | nil => simp
  | cons x d ih =>
    have hone : List.countP (fun e => decide (e ∉ net ++ [x])) univ + 1 ≤
        List.countP (fun e => decide (e ∉ net)) univ := by
      apply countP_succ_le _ _ _ ?_ x (hsub x (List.mem_cons_self x d)).1 ?_ ?_
      · intro a _ h
        simp only [decide_eq_true_eq] at h ⊢
        intro hc
        exact h (List.mem_append.mpr (Or.inl hc))
      · simp only [decide_eq_true_eq]
        exact (hsub x (List.mem_cons_self x d)).2
      · simp
    have hsub' : ∀ y ∈ d, y ∈ univ ∧ y ∉ net ++ [x] := by
      intro y hy
      refine ⟨(hsub y (List.mem_cons_of_mem x hy)).1, ?_⟩
      intro hc
      rcases List.mem_append.mp hc with h1 | h1
      · exact (hsub y (List.mem_cons_of_mem x hy)).2 h1
      · have hyx : y = x := by simpa using h1
        exact (List.nodup_cons.mp hd).1 (hyx ▸ hy)
    have hih := ih (net ++ [x]) (List.Nodup.of_cons hd) hsub'
    have heq : net ++ x :: d = (net ++ [x]) ++ d := by simp
    rw [heq, List.length_cons]
    omega

/-- Fuel sufficiency for the walk: the queue length plus the number of
not-yet-visited universe entries bounds the remaining iterations, so
`bfs` succeeds on any fuel at least that measure. -/
theorem bfs_isSome (univ : List Shape) (fuel : Nat) :
    ∀ st : TraceState,
      st.queue.length + List.countP (fun e => decide (e ∉ st.net)) univ ≤ fuel →
      (bfs univ fuel st).isSome = true := by
  induction fuel with
  | zero =>
    intro st h
    cases hq : st.queue with
    | nil => simp [bfs, hq]
    | cons current rest =>
      rw [hq] at h
      simp at h
  | succ fuel ih =>
    intro st h
    cases hq : st.queue with
    | nil => simp [bfs, hq]
    | cons current rest =>
      have hstep : bfs univ (fuel + 1) st =
          bfs univ fuel (List.foldl (scanStep current) ⟨st.net, rest, st.points⟩ univ) := by
        simp [bfs, hq]
      rw [hstep]
      obtain ⟨d, ps, heq, hnd, hmem, _⟩ :=
        foldScan_spec current univ ⟨st.net, rest, st.points⟩
      rw [heq]
      apply ih
      have hc := countP_ge_append univ st.net d hnd hmem
      have hql : st.queue.length = rest.length + 1 := by rw [hq]; rfl
      simp only [List.length_append]
      rw [hql] at h
      omega

/-- A successful walk only ever extends the visited set. -/
theorem bfs_net_suffix (univ : List Shape) (fuel : Nat) :
    ∀ st net pts, bfs univ fuel st = some (net, pts) → ∃ d, net = st.net ++ d := by
  induction fuel with
  | zero =>
    intro st net pts h
    cases hq : st.queue with
    | nil =>
      rw [show bfs univ 0 st = some (st.net, st.points) by simp [bfs, hq]] at h
      injection h with h'
      exact ⟨[], by rw [← (Prod.mk.injEq _ _ _ _).mp h' |>.1]; simp⟩
    | cons current rest =>
      rw [show bfs univ 0 st = none by simp [bfs, hq]] at h
      exact absurd h (by simp)
  | succ fuel ih =>
    intro st net pts h
    cases hq : st.queue with
    | nil =>
      rw [show bfs univ (fuel + 1) st = some (st.net, st.points) by simp [bfs, hq]] at h
      injection h with h'
      exact ⟨[], by rw [← (Prod.mk.injEq _ _ _ _).mp h' |>.1]; simp⟩
    | cons current rest =>
      rw [show bfs univ (fuel + 1) st =
          bfs univ fuel (List.foldl (scanStep current) ⟨st.net, rest, st.points⟩ univ) by
        simp [bfs, hq]] at h
      obtain ⟨d, ps, heq, _, _, _⟩ :=
        foldScan_spec current univ ⟨st.net, rest, st.points⟩
      rw [heq] at h
      obtain ⟨d2, hd2⟩ := ih _ _ _ h
      exact ⟨d ++ d2, by rw [hd2]; simp⟩

/-- One inner pass picks up every candidate that connects to the shape
being expanded (and is neither the background element nor nested in a
background group). -/
theorem foldScan_covers (current : Shape) (l : List Shape) :
    ∀ st e, e ∈ l → ¬ e.id = "circuit-bg" → ¬ e.closestGId = some "background" →
      (checkConnectivity current e).isSome = true →
      e ∈ (List.foldl (scanStep current) st l).net := by
  induction l with
  | nil =>
    intro st e he _ _ _
    simp at he
  | cons x t ih =>
    intro st e he hbg1 hbg2 hcc
    have hbg : ¬ (e.id = "circuit-bg" ∨ e.closestGId = some "background") := by
      rintro (h | h)
      · exact hbg1 h
      · exact hbg2 h
    rw [List.foldl_cons]
    rcases List.mem_cons.mp he with h1 | h1
    · have hsub : ∀ st1 : TraceState, ∀ y ∈ st1.net,
          y ∈ (List.foldl (scanStep current) st1 t).net := by
        intro st1 y hy
        obtain ⟨d, ps, heq, _, _, _⟩ := foldScan_spec current t st1
        rw [heq]
        exact List.mem_append_left _ hy
      apply hsub
      rw [← h1]
      by_cases hin : e ∈ st.net
      · rw [show scanStep current st e = st by simp [scanStep, hbg, hin]]
        exact hin
      · obtain ⟨p, hp⟩ := Option.isSome_iff_exists.mp hcc
        rw [show scanStep current st e =
            ⟨st.net ++ [e], st.queue ++ [e], st.points ++ [p]⟩ by
          simp [scanStep, hbg, hin, hp]]
        simp
    · exact ih (scanStep current st x) e h1 hbg1 hbg2 hcc

/-- Every shape connected to any queued shape ends up in the final net
of a successful walk, unless excluded as the background element or as a
member of a background group. -/
theorem bfs_covers (univ : List Shape) (fuel : Nat) :
    ∀ st net pts, bfs univ fuel st = some (net, pts) →
      ∀ x ∈ st.queue, ∀ e ∈ univ, ¬ e.id = "circuit-bg" →
        ¬ e.closestGId = some "background" →
        (checkConnectivity x e).isSome = true → e ∈ net := by
  induction fuel with
  | zero =>
    intro st net pts h x hx e he hbg1 hbg2 hcc
    cases hq : st.queue with
    | nil =>
      rw [hq] at hx
      simp at hx
    | cons current rest =>
      rw [show bfs univ 0 st = none by simp [bfs, hq]] at h
      exact absurd h (by simp)
  | succ fuel ih =>
    intro st net pts h x hx e he hbg1 hbg2 hcc
    cases hq : st.queue with
    | nil =>
      rw [hq] at hx
      simp at hx
    | cons current rest =>
      rw [show bfs univ (fuel + 1) st =
          bfs univ fuel (List.foldl (scanStep current) ⟨st.net, rest, st.points⟩ univ) by
        simp [bfs, hq]] at h
      rw [hq] at hx
      rcases List.mem_cons.mp hx with h1 | h1
      · have hmem : e ∈ (List.foldl (scanStep x) ⟨st.net, rest, st.points⟩ univ).net :=
          foldScan_covers x univ ⟨st.net, rest, st.points⟩ e he hbg1 hbg2 hcc
        rw [← h1] at h
        obtain ⟨d2, hd2⟩ := bfs_net_suffix univ fuel _ _ _ h
        rw [hd2]
        exact List.mem_append_left _ hmem
      · apply ih _ _ _ h x ?_ e he hbg1 hbg2 hcc
        obtain ⟨d, ps, heq, _, _, _⟩ :=
          foldScan_spec current univ ⟨st.net, rest, st.points⟩
        rw [heq]
        exact List.mem_append_left _ h1

/-- The instrumented walk is `bfs` with a visit log: dropping the log
gives exactly `bfs`. -/
theorem bfsVisits_fst (univ : List Shape) (fuel : Nat) :
    ∀ st vs, (bfsVisits univ fuel st vs).map Prod.fst = bfs univ fuel st := by
  induction fuel with
  | zero =>
    intro st vs
    cases hq : st.queue with
    | nil => simp [bfs, bfsVisits, hq]
    | cons current rest => simp [bfs, bfsVisits, hq]
  | succ fuel ih =>
    intro st vs
    cases hq : st.queue with
    | nil => simp [bfs, bfsVisits, hq]
    | cons current rest =>
      rw [show bfsVisits univ (fuel + 1) st vs =
          bfsVisits univ fuel (List.foldl (scanStep current) ⟨st.net, rest, st.points⟩ univ)
            (vs ++ [current]) by simp [bfsVisits, hq]]
      rw [show bfs univ (fuel + 1) st =
          bfs univ fuel (List.foldl (scanStep current) ⟨st.net, rest, st.points⟩ univ) by
        simp [bfs, hq]]
      exact ih _ _

/-- Main invariant of the walk: starting from a duplicate-free state in
which the queue is contained in the net and the visit log is a
duplicate-free subset of the net disjoint from the queue, a successful
walk produces a duplicate-free net and a duplicate-free visit log. -/
theorem bfsVisits_nodup (univ : List Shape) (fuel : Nat) :
    ∀ st vs res, bfsVisits univ fuel st vs = some res →
      st.net.Nodup → st.queue.Nodup → (∀ x ∈ st.queue, x ∈ st.net) →
      (∀ v ∈ vs, v ∈ st.net) → vs.Nodup → (∀ v ∈ vs, v ∉ st.queue) →
      res.1.1.Nodup ∧ res.2.Nodup := by
  induction fuel with
  | zero =>
    intro st vs res h hnet hq hqn hvs hvnd hvq
    cases hq2 : st.queue with
    | nil =>
      rw [show bfsVisits univ 0 st vs = some ((st.net, st.points), vs) by
        simp [bfsVisits, hq2]] at h
      injection h with h'
      rw [← h']
      exact ⟨hnet, hvnd⟩
    | cons current rest =>
      rw [show bfsVisits univ 0 st vs = none by simp [bfsVisits, hq2]] at h
      exact absurd h (by simp)
  | succ fuel ih =>
    intro st vs res h hnet hq hqn hvs hvnd hvq
    cases hq2 : st.queue with
    | nil =>
      rw [show bfsVisits univ (fuel + 1) st vs = some ((st.net, st.points), vs) by
        simp [bfsVisits, hq2]] at h
      injection h with h'
      rw [← h']
      exact ⟨hnet, hvnd⟩
    | cons current rest =>
      rw [show bfsVisits univ (fuel + 1) st vs =
          bfsVisits univ fuel (List.foldl (scanStep current) ⟨st.net, rest, st.points⟩ univ)
            (vs ++ [current]) by simp [bfsVisits, hq2]] at h
      obtain ⟨d, ps, heq, hnd, hmem, _⟩ :=
        foldScan_spec current univ ⟨st.net, rest, st.points⟩
      rw [heq] at h
      have hcur_net : current ∈ st.net :=
        hqn current (by rw [hq2]; exact List.mem_cons_self _ _)
      have hrest_nd : rest.Nodup := by
        rw [hq2] at hq
        exact (List.nodup_cons.mp hq).2
      have hcur_rest : current ∉ rest := by
        rw [hq2] at hq
        exact (List.nodup_cons.mp hq).1
      refine ih _ _ _ h ?_ ?_ ?_ ?_ ?_ ?_
      · show (st.net ++ d).Nodup
        rw [List.nodup_append]
        refine ⟨hnet, hnd, ?_⟩
        intro a ha had
        exact (hmem a had).2 ha
      · show (rest ++ d).Nodup
        rw [List.nodup_append]
        refine ⟨hrest_nd, hnd, ?_⟩
        intro a ha had
        exact (hmem a had).2 (hqn a (by rw [hq2]; exact List.mem_cons_of_mem _ ha))
      · show ∀ x ∈ rest ++ d, x ∈ st.net ++ d
        intro x hx
        rcases List.mem_append.mp hx with h1 | h1
        · exact List.mem_append_left _ (hqn x (by rw [hq2]; exact List.mem_cons_of_mem _ h1))
        · exact List.mem_append_right _ h1
      · show ∀ v ∈ vs ++ [current], v ∈ st.net ++ d
        intro v hv
        rcases List.mem_append.mp hv with h1 | h1
        · exact List.mem_append_left _ (hvs v h1)
        · have hvc : v = current := by simpa using h1
          exact List.mem_append_left _ (hvc ▸ hcur_net)
      · show (vs ++ [current]).Nodup
        rw [List.nodup_append]
        refine ⟨hvnd, List.nodup_singleton _, ?_⟩
        intro a ha hb
        have hac : a = current := by simpa using hb
        exact hvq a ha (by rw [hq2, hac]; exact List.mem_cons_self _ _)
      · show ∀ v ∈ vs ++ [current], v ∉ rest ++ d
        intro v hv hc
        have hvnet : v ∈ st.net := by
          rcases List.mem_append.mp hv with h2 | h2
          · exact hvs v h2
          · have hvc : v = current := by simpa using h2
            exact hvc ▸ hcur_net
        rcases List.mem_append.mp hc with h1 | h1
        · rcases List.mem_append.mp hv with h2 | h2
          · exact hvq v h2 (by rw [hq2]; exact List.mem_cons_of_mem _ h1)
          · have hvc : v = current := by simpa using h2
            exact hcur_rest (hvc ▸ h1)
        · exact (hmem v h1).2 hvnet

/-- Every junction point a successful walk records is a point of some
shape in the visit log (the shape that was being expanded when the point
was recorded). -/
theorem bfsVisits_points (univ : List Shape) (fuel : Nat) :
    ∀ st vs res, bfsVisits univ fuel st vs = some res →
      (∀ p ∈ st.points, ∃ s ∈ vs, p ∈ getElementCoordinates s) →
      ∀ p ∈ res.1.2, ∃ s ∈ res.2, p ∈ getElementCoordinates s := by
  induction fuel with
  | zero =>
    intro st vs res h hprev
    cases hq : st.queue with
    | nil =>
      rw [show bfsVisits univ 0 st vs = some ((st.net, st.points), vs) by
        simp [bfsVisits, hq]] at h
      injection h with h'
      rw [← h']
      exact hprev
    | cons current rest =>
      rw [show bfsVisits univ 0 st vs = none by simp [bfsVisits, hq]] at h
      exact absurd h (by simp)
  | succ fuel ih =>
    intro st vs res h hprev
    cases hq : st.queue with
    | nil =>
      rw [show bfsVisits univ (fuel + 1) st vs = some ((st.net, st.points), vs) by
        simp [bfsVisits, hq]] at h
      injection h with h'
      rw [← h']
      exact hprev
    | cons current rest =>
      rw [show bfsVisits univ (fuel + 1) st vs =
          bfsVisits univ fuel (List.foldl (scanStep current) ⟨st.net, rest, st.points⟩ univ)
            (vs ++ [current]) by simp [bfsVisits, hq]] at h
      obtain ⟨d, ps, heq, _, _, hps⟩ :=
        foldScan_spec current univ ⟨st.net, rest, st.points⟩
      rw [heq] at h
      refine ih _ _ _ h ?_
      show ∀ p ∈ st.points ++ ps, ∃ s ∈ vs ++ [current], p ∈ getElementCoordinates s
      intro p hp
      rcases List.mem_append.mp hp with h1 | h1
      · obtain ⟨s, hs, hpoint⟩ := hprev p h1
        exact ⟨s, List.mem_append_left _ hs, hpoint⟩
      · exact ⟨current, List.mem_append_right _ (by simp), hps p h1⟩

/-- Membership through the append-if-new fold: exactly the union of the
accumulator and the scanned list. -/
theorem updFold_mem {α : Type} [DecidableEq α] (l : List α) :
    ∀ (acc : List α) (x : α),
      x ∈ List.foldl (fun acc el => if el ∈ acc then acc else acc ++ [el]) acc l ↔
        x ∈ acc ∨ x ∈ l := by
  induction l with
  | nil =>
    intro acc x
    simp
  | cons y t ih =>
    intro acc x
    rw [List.foldl_cons]
    by_cases hy : y ∈ acc
    · rw [if_pos hy, ih]
      constructor
      · rintro (h | h)
        · exact Or.inl h
        · exact Or.inr (List.mem_cons_of_mem y h)
      · rintro (h | h)
        · exact Or.inl h
        · rcases List.mem_cons.mp h with h1 | h1
          · exact Or.inl (h1 ▸ hy)
          · exact Or.inr h1
    · rw [if_neg hy, ih]
      constructor
      · rintro (h | h)
        · rcases List.mem_append.mp h with h1 | h1
          · exact Or.inl h1
          · exact Or.inr (List.mem_cons.mpr (Or.inl (by simpa using h1)))
        · exact Or.inr (List.mem_cons_of_mem y h)
      · rintro (h | h)
        · exact Or.inl (List.mem_append_left _ h)
        · rcases List.mem_cons.mp h with h1 | h1
          · exact Or.inl (List.mem_append_right _ (by simp [h1]))
          · exact Or.inr h1

/-- The append-if-new fold only appends: the accumulator is kept as a
prefix of the result. -/
theorem updFold_suffix {α : Type} [DecidableEq α] (l : List α) :
    ∀ acc : List α, ∃ t,
      List.foldl (fun acc el => if el ∈ acc then acc else acc ++ [el]) acc l = acc ++ t := by
  induction l with
  | nil =>
    intro acc
    exact ⟨[], by simp⟩
  | cons y t ih =>
    intro acc
    rw [List.foldl_cons]
    by_cases hy : y ∈ acc
    · rw [if_pos hy]
      exact ih acc
    · rw [if_neg hy]
      obtain ⟨t2, ht2⟩ := ih (acc ++ [y])
      exact ⟨y :: t2, by rw [ht2]; simp⟩

/-- The append-if-new fold preserves freedom from duplicates. -/
theorem updFold_nodup {α : Type} [DecidableEq α] (l : List α) :
    ∀ acc : List α, acc.Nodup →
      (List.foldl (fun acc el => if el ∈ acc then acc else acc ++ [el]) acc l).Nodup := by
  induction l with
  | nil =>
    intro acc h
    simpa using h
  | cons y t ih =>
    intro acc h
    rw [List.foldl_cons]
    by_cases hy : y ∈ acc
    · rw [if_pos hy]
      exact ih acc h
    · rw [if_neg hy]
      refine ih (acc ++ [y]) ?_
      rw [List.nodup_append]
      refine ⟨h, List.nodup_singleton _, ?_⟩
      intro a ha hb
      have hay : a = y := by simpa using hb
      exact hy (hay ▸ ha)

/-- Closed form of the append-if-new fold over a duplicate-free list:
the accumulator followed by the new elements in scan order. -/
theorem updFold_filter {α : Type} [DecidableEq α] (l : List α) :
    ∀ acc : List α, l.Nodup →
      List.foldl (fun acc el => if el ∈ acc then acc else acc ++ [el]) acc l =
        acc ++ l.filter (fun x => decide (x ∉ acc)) := by
  induction l with
  | nil =>
    intro acc _
    simp
  | cons y t ih =>
    intro acc hnd
    have hynt : y ∉ t := (List.nodup_cons.mp hnd).1
    have htnd : t.Nodup := (List.nodup_cons.mp hnd).2
    rw [List.foldl_cons, List.filter_cons]
    by_cases hy : y ∈ acc
    · rw [if_pos hy, ih acc htnd]
      simp [hy]
    · rw [if_neg hy, ih (acc ++ [y]) htnd]
      have hfc : t.filter (fun x => decide (x ∉ acc ++ [y])) =
          t.filter (fun x => decide (x ∉ acc)) := by
        apply List.filter_congr
        intro x hx
        have hxy : ¬ x = y := fun hc => hynt (hc ▸ hx)
        simp [hxy]
      rw [hfc]
      simp [hy]

/-- When a truthy value is saved through `a || b`, the saved value is
the original. -/
theorem jsOr_truthy (o : Option String) (d : String) (h : isTruthy o = true) :
    some (jsOr o d) = o := by
  cases o with
  | none => simp [isTruthy] at h
  | some s =>
    have hs : ¬ s = "" := by simpa [isTruthy] using h
    simp [jsOr, hs]

/-- Fallback `a || b` with a nonempty default is always truthy. -/
theorem isTruthy_jsOr (o : Option String) (d : String) (hd : ¬ d = "") :
    isTruthy (some (jsOr o d)) = true := by
  cases o with
  | none => simpa [jsOr, isTruthy] using hd
  | some s =>
    by_cases hs : s = ""
    · simpa [jsOr, hs, isTruthy] using hd
    · simp [jsOr, hs, isTruthy]

/-- Fallback `a || b` on a present nonempty value is that value. -/
theorem jsOr_some_of_ne (v d : String) (hv : ¬ v = "") : jsOr (some v) d = v := by
  simp [jsOr, hv]

/-- The dataset slots are all truthy after one highlight pass. -/
theorem applyHighlight_origs_truthy (s : ElemStyle) :
    isTruthy (applyHighlight s).origStroke = true ∧
      isTruthy (applyHighlight s).origWidth = true ∧
      isTruthy (applyHighlight s).origFill = true := by
  unfold applyHighlight
  by_cases h1 : isTruthy s.origStroke <;> by_cases h2 : isTruthy s.origWidth <;>
    by_cases h3 : isTruthy s.origFill <;>
      simp [h1, h2, h3, isTruthy_jsOr]

/-- The styling fields written by a highlight pass. -/
theorem applyHighlight_fields (s : ElemStyle) :
    (applyHighlight s).stroke = some "#00ff9d" ∧
      (applyHighlight s).strokeWidth = some "3" ∧
      (applyHighlight s).filter = "drop-shadow(0 0 5px #00ff9d)" ∧
      (applyHighlight s).highlighted = true := by
  unfold applyHighlight
  by_cases h1 : isTruthy s.origStroke <;> by_cases h2 : isTruthy s.origWidth <;>
    by_cases h3 : isTruthy s.origFill <;>
      simp [h1, h2, h3]

/-- The per-element highlight operation is idempotent: the second pass
finds every dataset slot already saved and rewrites the same styling. -/
theorem applyHighlight_idem (s : ElemStyle) :
    applyHighlight (applyHighlight s) = applyHighlight s := by
  obtain ⟨h1, h2, h3⟩ := applyHighlight_origs_truthy s
  obtain ⟨f1, f2, f3, f4⟩ := applyHighlight_fields s
  conv_lhs => rw [applyHighlight]
  rw [if_pos h1, if_pos h2, if_pos h3]
  rw [← f1, ← f2, ← f3, ← f4]

/-- Any `N ≥ 1` highlight passes are one highlight pass. -/
theorem applyHighlight_iterate (n : Nat) (h : 1 ≤ n) (s : ElemStyle) :
    applyHighlight^[n] s = applyHighlight s := by
  induction n with
  | zero => omega
  | succ n ih =>
    rcases Nat.eq_or_lt_of_le h with h1 | h1
    · rw [← h1]
      simp
    · rw [Function.iterate_succ_apply', ih (by omega)]
      exact applyHighlight_idem s

/-- Unfolding lemma: concatenation. -/
theorem matchRx_seq (a b : Rx) (s : List Char) (k : List Char → Option (List Char)) :
    matchRx (.seq a b) s k = matchRx a s (fun s1 => matchRx b s1 k) := rfl

/-- Unfolding lemma: greedy option. -/
theorem matchRx_opt (a : Rx) (s : List Char) (k : List Char → Option (List Char)) :
    matchRx (.opt a) s k =
      match matchRx a s k with
      | some r => some r
      | none => k s := rfl

/-- Unfolding lemma: greedy star. -/
theorem matchRx_star (p : Char → Bool) (s : List Char) (k : List Char → Option (List Char)) :
    matchRx (.star p) s k = matchStarGo s k ((s.takeWhile p).length) := rfl

/-- Unfolding lemma: character class on an empty input. -/
theorem matchRx_cls_nil (p : Char → Bool) (k : List Char → Option (List Char)) :
    matchRx (.cls p) [] k = none := rfl

/-- Unfolding lemma: character class on a nonempty input. -/
theorem matchRx_cls_cons (p : Char → Bool) (c : Char) (t : List Char)
    (k : List Char → Option (List Char)) :
    matchRx (.cls p) (c :: t) k = if p c then k t else none := rfl

/-- If the continuation fails on every suffix, the star fails. -/
theorem matchStarGo_none (s : List Char) (k : List Char → Option (List Char))
    (hk : ∀ j : Nat, k (s.drop j) = none) :
    ∀ n : Nat, matchStarGo s k n = none := by
  intro n
  induction n with
  | zero => simpa using hk 0
  | succ n ih =>
    rw [matchStarGo, hk (n + 1)]
    exact ih

/-- The coordinate-pair pattern fails on digit-free input: its first
mandatory digit class can never be satisfied. -/
theorem matchRx_pairRx_none (s : List Char) (k : List Char → Option (List Char))
    (h : ∀ c ∈ s, c.isDigit = false) : matchRx pairRx s k = none := by
  have core : ∀ s2 : List Char, (∀ c ∈ s2, c.isDigit = false) →
      matchRx digitStartRx s2 k = none := by
    intro s2 h2
    unfold digitStartRx
    rw [matchRx_seq]
    cases s2 with
    | nil => rw [matchRx_cls_nil]
    | cons c t =>
      rw [matchRx_cls_cons]
      simp [h2 c (List.mem_cons_self c t)]
  have l3 : ∀ s3 : List Char, (∀ c ∈ s3, c.isDigit = false) →
      matchRx afterWsRx s3 k = none := by
    intro s3 h3
    unfold afterWsRx
    rw [matchRx_seq, matchRx_opt]
    cases s3 with
    | nil =>
      rw [matchRx_cls_nil]
      exact core [] (by simp)
    | cons c t =>
      rw [matchRx_cls_cons]
      by_cases hcd : c = '-'
      · have h1 := core t fun x hx => h3 x (List.mem_cons_of_mem c hx)
        have h2 := core (c :: t) h3
        rw [hcd] at h2
        simp [hcd, h1, h2]
      · have h2 := core (c :: t) h3
        simp [hcd, h2]
  have l2 : ∀ s2 : List Char, (∀ c ∈ s2, c.isDigit = false) →
      matchRx afterMLRx s2 k = none := by
    intro s2 h2
    unfold afterMLRx
    rw [matchRx_seq, matchRx_star]
    apply matchStarGo_none
    intro j
    exact l3 (s2.drop j) fun c hc => h2 c (List.mem_of_mem_drop hc)
  unfold pairRx
  rw [matchRx_seq, matchRx_opt]
  cases s with
  | nil =>
    rw [matchRx_cls_nil]
    exact l2 [] (by simp)
  | cons c t =>
    rw [matchRx_cls_cons]
    by_cases hM : c = 'M'
    · have h1 := l2 t fun x hx => h x (List.mem_cons_of_mem c hx)
      have h2 := l2 (c :: t) h
      rw [hM] at h2
      simp [hM, h1, h2]
    · by_cases hL : c = 'L'
      · have h1 := l2 t fun x hx => h x (List.mem_cons_of_mem c hx)
        have h2 := l2 (c :: t) h
        rw [hL] at h2
        simp [hM, hL, h1, h2]
      · have h2 := l2 (c :: t) h
        simp [hM, hL, h2]

/-- A path datum without any digit yields no terminal points. -/
theorem pathPoints_no_digits (d : String) (h : ∀ c ∈ d.data, c.isDigit = false) :
    pathPoints d = [] := by
  have hgo : ∀ (fuel : Nat) (s : List Char), (∀ c ∈ s, c.isDigit = false) →
      scanAllGo pairRx fuel s = [] := by
    intro fuel
    induction fuel with
    | zero =>
      intro s _
      rfl
    | succ fuel ih =>
      intro s hs
      cases s with
      | nil => rfl
      | cons c t =>
        have hnone := matchRx_pairRx_none (c :: t) some hs
        simp only [scanAllGo, hnone]
        exact ih t fun x hx => hs x (List.mem_cons_of_mem c hx)
  unfold pathPoints scanAll
  rw [hgo d.data.length d.data h]
  rfl

/-- The trace always succeeds on its built-in fuel: each element is
enqueued at most once, so `|universe| + 1` loop iterations suffice. -/
theorem traceNet_isSome (startElement : Shape) (univ : List Shape) :
    (traceNet startElement univ).isSome = true := by
  unfold traceNet
  apply bfs_isSome
  have h : List.countP (fun e => decide (e ∉ [startElement])) univ ≤ univ.length :=
    List.countP_le_length _
  change ([startElement] : List Shape).length +
      List.countP (fun e => decide (e ∉ [startElement])) univ ≤ univ.length + 1
  simp only [List.length_singleton]
  omega

/-- An empty needle is contained in every haystack. -/
theorem hasSub_nil (hay : List Char) : hasSub hay [] = true := by
  cases hay with
  | nil => rfl
  | cons c t => simp [hasSub, List.isPrefixOf]

/-- JavaScript `includes` with the empty string is always true. -/
theorem strIncludes_empty (hay : String) : strIncludes hay "" = true :=
  hasSub_nil hay.data

/-! ### The claims -/

/-- C1: for the two line shapes `L1` from (0,0)-(10,0) and `L2` from
(10,0)-(20,0), with the default proximity threshold 6, tracing from seed
`L1` over the universe `[L1, L2]` returns exactly the shapes
`[L1, L2]` in discovery order (`L1` first) and the terminal list
`[(10,0)]`. -/
theorem C1_trace_scenarioA :
    traceNet ⟨0, "L1", .line 0 0 10 0, none⟩
        [⟨0, "L1", .line 0 0 10 0, none⟩, ⟨1, "L2", .line 10 0 20 0, none⟩] =
      some ([⟨0, "L1", .line 0 0 10 0, none⟩, ⟨1, "L2", .line 10 0 20 0, none⟩], [⟨10, 0⟩]) := by
  norm_num +decide [traceNet, bfs, scanStep, checkConnectivity, getElementCoordinates,
    arePointsClose, sqDist, List.find?, List.any, List.foldl]

/-- C8: for every seed shape and every finite shape universe the net
trace terminates — the breadth-first loop empties its queue within the
built-in iteration bound, because each shape is enqueued at most once. -/
theorem C8_trace_terminates (startElement : Shape) (univ : List Shape) :
    (traceNet startElement univ).isSome = true :=
  traceNet_isSome startElement univ

/-- C9: two points whose Euclidean distance is exactly the threshold
(squared distance exactly `t^2`) are judged NOT adjacent — adjacency
requires strictly smaller distance.  With `t = 6` this is the default
threshold of the source. -/
theorem C9_threshold_strict (p1 p2 : Point) (t : ℚ)
    (h : sqDist p1 p2 = t ^ 2) : arePointsClose p1 p2 t = false := by
  simp [arePointsClose, h]

/-- Witness for C9 at the concrete pair (0,0), (6,0) and the default
threshold 6. -/
theorem C9_threshold_strict_witness :
    sqDist ⟨0, 0⟩ ⟨6, 0⟩ = 6 ^ 2 ∧ arePointsClose ⟨0, 0⟩ ⟨6, 0⟩ 6 = false :=
  ⟨by norm_num [sqDist], C9_threshold_strict ⟨0, 0⟩ ⟨6, 0⟩ 6 (by norm_num [sqDist])⟩

/-- C3: a single trace visits each shape at most once: for every seed
and universe the instrumented walk succeeds, agrees with `traceNet`, and
both the resulting net and the list of expanded (visited) shapes are
duplicate-free — a set, not a multiset. -/
theorem C3_trace_no_revisit (startElement : Shape) (univ : List Shape) :
    ∃ net pts visits,
      bfsVisits univ (univ.length + 1) ⟨[startElement], [startElement], []⟩ [] =
          some ((net, pts), visits) ∧
        traceNet startElement univ = some (net, pts) ∧ net.Nodup ∧ visits.Nodup := by
  have hproj := bfsVisits_fst univ (univ.length + 1) ⟨[startElement], [startElement], []⟩ []
  have hsome := traceNet_isSome startElement univ
  cases hbv : bfsVisits univ (univ.length + 1) ⟨[startElement], [startElement], []⟩ [] with
  | none =>
    rw [hbv] at hproj
    unfold traceNet at hsome
    rw [← hproj] at hsome
    simp at hsome
  | some res =>
    obtain ⟨⟨net, pts⟩, vs⟩ := res
    rw [hbv] at hproj
    have htr : traceNet startElement univ = some (net, pts) := by
      unfold traceNet
      rw [← hproj]
      rfl
    have hinv := bfsVisits_nodup univ (univ.length + 1) _ _ _ hbv
      (by simp) (by simp) (fun x hx => hx) (by simp) (by simp) (by simp)
    exact ⟨net, pts, vs, rfl, htr, hinv.1, hinv.2⟩

/-- C4 counterexample: the claim fails as stated for both exclusions of
the walk's inner loop.  `w1` and the `circuit-bg` line share the close
point (10,0) and both are in the universe, yet tracing from `w1`
returns the net `[w1]` only; likewise `w2`, an ordinary line nested in
a group with id `background`, shares the close point but is never
included either. -/
theorem C4_background_excluded :
    ((checkConnectivity ⟨0, "w1", .line 0 0 10 0, none⟩
          ⟨1, "circuit-bg", .line 10 0 20 0, none⟩).isSome = true ∧
        traceNet ⟨0, "w1", .line 0 0 10 0, none⟩
            [⟨0, "w1", .line 0 0 10 0, none⟩, ⟨1, "circuit-bg", .line 10 0 20 0, none⟩] =
          some ([⟨0, "w1", .line 0 0 10 0, none⟩], []) ∧
        (⟨1, "circuit-bg", .line 10 0 20 0, none⟩ : Shape) ∉
          ([⟨0, "w1", .line 0 0 10 0, none⟩] : List Shape)) ∧
      (checkConnectivity ⟨0, "w1", .line 0 0 10 0, none⟩
          ⟨2, "w2", .line 10 0 20 0, some "background"⟩).isSome = true ∧
        traceNet ⟨0, "w1", .line 0 0 10 0, none⟩
            [⟨0, "w1", .line 0 0 10 0, none⟩,
              ⟨2, "w2", .line 10 0 20 0, some "background"⟩] =
          some ([⟨0, "w1", .line 0 0 10 0, none⟩], []) ∧
        (⟨2, "w2", .line 10 0 20 0, some "background"⟩ : Shape) ∉
          ([⟨0, "w1", .line 0 0 10 0, none⟩] : List Shape) := by
  refine ⟨⟨?_, ?_, ?_⟩, ?_, ?_, ?_⟩
  · norm_num +decide [checkConnectivity, getElementCoordinates, arePointsClose, sqDist,
      List.find?, List.any]
  · norm_num +decide [traceNet, bfs, scanStep, checkConnectivity, getElementCoordinates,
      arePointsClose, sqDist, List.find?, List.any, List.foldl]
  · decide
  · norm_num +decide [checkConnectivity, getElementCoordinates, arePointsClose, sqDist,
      List.find?, List.any]
  · norm_num +decide [traceNet, bfs, scanStep, checkConnectivity, getElementCoordinates,
      arePointsClose, sqDist, List.find?, List.any, List.foldl]
  · decide

/-- C4 (amended): for every pair of shapes `A`, `B` of the universe with
a close point pair, provided the trace's exclusions apply to neither —
neither is the designated background element (`id = "circuit-bg"`) and
neither is nested in a group with id `background` — tracing from `A`
includes `B` and tracing from `B` includes `A`. -/
theorem C4_symmetric_inclusion (A B : Shape) (univ : List Shape)
    (hA : A ∈ univ) (hB : B ∈ univ) (hAbg : ¬ A.id = "circuit-bg")
    (hBbg : ¬ B.id = "circuit-bg") (hAgr : ¬ A.closestGId = some "background")
    (hBgr : ¬ B.closestGId = some "background")
    (hclose : (checkConnectivity A B).isSome = true) :
    (∃ netA ptsA, traceNet A univ = some (netA, ptsA) ∧ B ∈ netA) ∧
      ∃ netB ptsB, traceNet B univ = some (netB, ptsB) ∧ A ∈ netB := by
  have hone : ∀ X Y : Shape, Y ∈ univ → ¬ Y.id = "circuit-bg" →
      ¬ Y.closestGId = some "background" →
      (checkConnectivity X Y).isSome = true →
      ∃ netX ptsX, traceNet X univ = some (netX, ptsX) ∧ Y ∈ netX := by
    intro X Y hY hYbg hYgr hcl
    have hsome := traceNet_isSome X univ
    obtain ⟨pr, hpr⟩ := Option.isSome_iff_exists.mp hsome
    obtain ⟨netX, ptsX⟩ := pr
    refine ⟨netX, ptsX, hpr, ?_⟩
    unfold traceNet at hpr
    exact bfs_covers univ (univ.length + 1) _ _ _ hpr X (List.mem_singleton_self X)
      Y hY hYbg hYgr hcl
  exact ⟨hone A B hB hBbg hBgr hclose,
    hone B A hA hAbg hAgr ((checkConnectivity_symm A B).mp hclose)⟩

/-- Witness for C4 (amended) at the two lines of scenario A. -/
theorem C4_symmetric_inclusion_witness :
    (checkConnectivity ⟨0, "L1", .line 0 0 10 0, none⟩
        ⟨1, "L2", .line 10 0 20 0, none⟩).isSome = true ∧
      ((∃ netA ptsA,
          traceNet ⟨0, "L1", .line 0 0 10 0, none⟩
              [⟨0, "L1", .line 0 0 10 0, none⟩, ⟨1, "L2", .line 10 0 20 0, none⟩] =
            some (netA, ptsA) ∧ (⟨1, "L2", .line 10 0 20 0, none⟩ : Shape) ∈ netA) ∧
        ∃ netB ptsB,
          traceNet ⟨1, "L2", .line 10 0 20 0, none⟩
              [⟨0, "L1", .line 0 0 10 0, none⟩, ⟨1, "L2", .line 10 0 20 0, none⟩] =
            some (netB, ptsB) ∧ (⟨0, "L1", .line 0 0 10 0, none⟩ : Shape) ∈ netB) := by
  have hcl : (checkConnectivity ⟨0, "L1", .line 0 0 10 0, none⟩
      ⟨1, "L2", .line 10 0 20 0, none⟩).isSome = true := by
    norm_num +decide [checkConnectivity, getElementCoordinates, arePointsClose, sqDist,
      List.find?, List.any]
  exact ⟨hcl, C4_symmetric_inclusion _ _ _ (by decide) (by decide) (by decide)
    (by decide) (by decide) (by decide) hcl⟩

/-- C10: the junction point of a newly discovered connection is taken
from the point list of the shape being expanded — it is the first point
of that list, in scan order, that has a close partner on the other
shape's list — and every terminal a trace records is a point of some
shape the walk had already visited and was expanding. -/
theorem C10_terminal_provenance :
    (∀ e1 e2 : Shape, ∀ p : Point,
        checkConnectivity e1 e2 = some p →
          ∃ l1 l2, getElementCoordinates e1 = l1 ++ p :: l2 ∧
            ((getElementCoordinates e2).any fun q => arePointsClose p q) = true ∧
            ∀ x ∈ l1,
              ((getElementCoordinates e2).any fun q => arePointsClose x q) = false) ∧
      ∀ (startElement : Shape) (univ net : List Shape) (pts : List Point)
          (visits : List Shape),
        bfsVisits univ (univ.length + 1) ⟨[startElement], [startElement], []⟩ [] =
            some ((net, pts), visits) →
          ∀ p ∈ pts, ∃ s ∈ visits, p ∈ getElementCoordinates s := by
  constructor
  · intro e1 e2 p h
    unfold checkConnectivity at h
    exact find?_first _ _ _ h
  · intro startElement univ net pts visits h p hp
    exact bfsVisits_points univ (univ.length + 1) _ _ _ h (by simp) p hp

/-- Witness for C10 at the two lines of scenario A: the recorded
junction (10,0) is the first point of `L1`'s list with a close partner
on `L2`. -/
theorem C10_terminal_provenance_witness :
    checkConnectivity ⟨0, "L1", .line 0 0 10 0, none⟩ ⟨1, "L2", .line 10 0 20 0, none⟩ =
        some ⟨10, 0⟩ ∧
      ∃ l1 l2,
        getElementCoordinates ⟨0, "L1", .line 0 0 10 0, none⟩ = l1 ++ (⟨10, 0⟩ : Point) :: l2 ∧
          ((getElementCoordinates ⟨1, "L2", .line 10 0 20 0, none⟩).any fun q =>
              arePointsClose ⟨10, 0⟩ q) = true ∧
          ∀ x ∈ l1,
            ((getElementCoordinates ⟨1, "L2", .line 10 0 20 0, none⟩).any fun q =>
                arePointsClose x q) = false := by
  have hcc : checkConnectivity ⟨0, "L1", .line 0 0 10 0, none⟩ ⟨1, "L2", .line 10 0 20 0, none⟩ =
      some ⟨10, 0⟩ := by
    norm_num +decide [checkConnectivity, getElementCoordinates, arePointsClose, sqDist,
      List.find?, List.any]
  exact ⟨hcc, C10_terminal_provenance.1 _ _ _ hcc⟩

/-- C2 counterexample: for a pristine element with no stroke attribute,
one highlight followed by a clear does not restore the stroke attribute
(the source writes the `'black'` fallback instead of removing it), and
the saved original is not forgotten by the clear (the dataset slot
survives). -/
theorem C2_clear_not_exact :
    (clearHighlightEl
          (applyHighlight ⟨none, none, none, none, none, none, false, ""⟩)).stroke ≠
        (⟨none, none, none, none, none, none, false, ""⟩ : ElemStyle).stroke ∧
      (clearHighlightEl
          (applyHighlight ⟨none, none, none, none, none, none, false, ""⟩)).origStroke ≠
        none := by
  constructor <;> decide

/-- C2 (amended): for an element whose stroke, stroke-width and fill
attributes are present (truthy) and whose dataset slots are still unsaved
(falsy), any `N ≥ 1` highlight passes save the originals once,
idempotently, and a subsequent clear restores stroke, stroke-width and
fill exactly; the saved originals are retained (not forgotten) by the
clear and still equal the true originals. -/
theorem C2_highlight_round_trip (s : ElemStyle) (n : Nat) (hn : 1 ≤ n)
    (hstroke : isTruthy s.stroke = true) (hwidth : isTruthy s.strokeWidth = true)
    (hfill : isTruthy s.fill = true) (ho1 : isTruthy s.origStroke = false)
    (ho2 : isTruthy s.origWidth = false) (ho3 : isTruthy s.origFill = false) :
    (clearHighlightEl (applyHighlight^[n] s)).stroke = s.stroke ∧
      (clearHighlightEl (applyHighlight^[n] s)).strokeWidth = s.strokeWidth ∧
      (clearHighlightEl (applyHighlight^[n] s)).fill = s.fill ∧
      (clearHighlightEl (applyHighlight^[n] s)).origStroke = s.stroke ∧
      (clearHighlightEl (applyHighlight^[n] s)).origWidth = s.strokeWidth ∧
      (clearHighlightEl (applyHighlight^[n] s)).origFill = s.fill := by
  rw [applyHighlight_iterate n hn]
  have e1 : applyHighlight s =
      { s with stroke := some "#00ff9d", strokeWidth := some "3",
               filter := "drop-shadow(0 0 5px #00ff9d)", highlighted := true,
               origStroke := some (jsOr s.stroke "black"),
               origWidth := some (jsOr s.strokeWidth "1"),
               origFill := some (jsOr s.fill "none") } := by
    unfold applyHighlight
    simp [ho1, ho2, ho3]
  rw [e1]
  have r1 : some (jsOr s.stroke "black") = s.stroke := jsOr_truthy _ _ hstroke
  have r2 : some (jsOr s.strokeWidth "1") = s.strokeWidth := jsOr_truthy _ _ hwidth
  have r3 : some (jsOr s.fill "none") = s.fill := jsOr_truthy _ _ hfill
  have t1 : ¬ jsOr s.stroke "black" = "" := by
    have h := isTruthy_jsOr s.stroke "black" (by decide)
    simpa [isTruthy] using h
  have t2 : ¬ jsOr s.strokeWidth "1" = "" := by
    have h := isTruthy_jsOr s.strokeWidth "1" (by decide)
    simpa [isTruthy] using h
  have t3 : ¬ jsOr s.fill "none" = "" := by
    have h := isTruthy_jsOr s.fill "none" (by decide)
    simpa [isTruthy] using h
  unfold clearHighlightEl
  refine ⟨?_, ?_, ?_, ?_, ?_, ?_⟩
  · show some (jsOr (some (jsOr s.stroke "black")) "black") = s.stroke
    rw [jsOr_some_of_ne _ _ t1]
    exact r1
  · show some (jsOr (some (jsOr s.strokeWidth "1")) "1") = s.strokeWidth
    rw [jsOr_some_of_ne _ _ t2]
    exact r2
  · show (if jsOr s.fill "none" = "" then s.fill else some (jsOr s.fill "none")) = s.fill
    rw [if_neg t3]
    exact r3
  · exact r1
  · exact r2
  · exact r3

/-- Witness for C2 (amended) at a concrete styled element and two
highlight passes. -/
theorem C2_highlight_round_trip_witness :
    1 ≤ 2 ∧
      ((clearHighlightEl
            (applyHighlight^[2]
              ⟨some "red", some "2", some "blue", none, none, none, false, ""⟩)).stroke =
          some "red" ∧
        (clearHighlightEl
            (applyHighlight^[2]
              ⟨some "red", some "2", some "blue", none, none, none, false, ""⟩)).strokeWidth =
          some "2" ∧
        (clearHighlightEl
            (applyHighlight^[2]
              ⟨some "red", some "2", some "blue", none, none, none, false, ""⟩)).fill =
          some "blue" ∧
        (clearHighlightEl
            (applyHighlight^[2]
              ⟨some "red", some "2", some "blue", none, none, none, false, ""⟩)).origStroke =
          some "red" ∧
        (clearHighlightEl
            (applyHighlight^[2]
              ⟨some "red", some "2", some "blue", none, none, none, false, ""⟩)).origWidth =
          some "2" ∧
        (clearHighlightEl
            (applyHighlight^[2]
              ⟨some "red", some "2", some "blue", none, none, none, false, ""⟩)).origFill =
          some "blue") :=
  ⟨by decide,
    C2_highlight_round_trip ⟨some "red", some "2", some "blue", none, none, none, false, ""⟩
      2 (by decide) (by decide) (by decide) (by decide) (by decide) (by decide) (by decide)⟩

/-- C5 counterexample: the source lower-cases the query but performs no
whitespace collapsing.  For the component `R 1` and the query `R  1`
(two spaces), the source's match set is empty while the spec-described
normalization (lower-case and collapse whitespace) matches the
component. -/
theorem C5_no_whitespace_collapse :
    filteredComponents [⟨some "R 1", none, none, none⟩] "R  1" = [] ∧
      specFilteredComponents [⟨some "R 1", none, none, none⟩] "R  1" =
        [⟨some "R 1", none, none, none⟩] := by
  constructor <;> decide

/-- C5 (amended): the search match set is substring containment across
the four metadata fields against the lower-cased (but not
whitespace-collapsed) query; it is a pure function of the component list
and query by construction, and the empty query returns the full
component list with every shape's opacity `1`. -/
theorem C5_search_filter (components : List CircuitComponent) (searchQuery : String) :
    (searchQuery = "" →
      filteredComponents components searchQuery = components ∧
        ∀ id : String, dimOpacity components searchQuery id = "1") ∧
    ∀ c : CircuitComponent,
      c ∈ filteredComponents components searchQuery ↔
        c ∈ components ∧
          (strIncludes (fieldLower c.designator) (strLower searchQuery) ||
            strIncludes (fieldLower c.type) (strLower searchQuery) ||
            strIncludes (fieldLower c.value) (strLower searchQuery) ||
            strIncludes (fieldLower c.description) (strLower searchQuery)) = true := by
  constructor
  · intro hq
    subst hq
    refine ⟨by simp [filteredComponents], ?_⟩
    intro id
    simp [dimOpacity]
  · intro c
    by_cases hq : searchQuery = ""
    · subst hq
      have hlow : strLower "" = "" := rfl
      rw [hlow]
      simp [filteredComponents, strIncludes_empty]
    · rw [filteredComponents, if_neg hq]
      rw [List.mem_filter]

/-- Witness for C5 (amended) at the empty query. -/
theorem C5_search_filter_witness :
    ("" : String) = "" ∧
      filteredComponents [⟨some "R1", none, none, none⟩] "" =
        [⟨some "R1", none, none, none⟩] ∧
      dimOpacity [⟨some "R1", none, none, none⟩] "" "C1" = "1" :=
  ⟨rfl, ((C5_search_filter [⟨some "R1", none, none, none⟩] "").1 rfl).1,
    ((C5_search_filter [⟨some "R1", none, none, none⟩] "").1 rfl).2 "C1"⟩

/-- C6 counterexample: a pure curve segment does contribute terminal
points — the command letter is optional in the scanning pattern, so the
curve arguments of `C 7,8` yield the point (7,8) instead of nothing. -/
theorem C6_curve_contributes :
    getElementCoordinates ⟨0, "p1", .path "C 7,8", none⟩ = [⟨7, 8⟩] ∧
      getElementCoordinates ⟨0, "p1", .path "C 7,8", none⟩ ≠ [] := by
  have h : pathPoints "C 7,8" = [⟨7, 8⟩] := by
    have h1 : scanAll pairRx "C 7,8".data = [[' ', '7', ',', '8']] := by decide
    have h2 : scanAll numRx [' ', '7', ',', '8'] = [['7'], ['8']] := by decide
    have p7 : parseNum ['7'] = 7 := by
      rw [parseNum_digits '7' [] (by decide) (by decide)]
      decide
    have p8 : parseNum ['8'] = 8 := by
      rw [parseNum_digits '8' [] (by decide) (by decide)]
      decide
    simp [pathPoints, h1, h2, p7, p8]
  constructor
  · exact h
  · show pathPoints "C 7,8" ≠ []
    rw [h]
    simp

/-- C6 (amended): the path extractor produces a terminal point from
every numeral pair found in the path data — the M/L command letter is
optional in the pattern, so curve command arguments also contribute
points; path data containing no digits (nothing the numeral scanner can
parse) contributes no terminal points; and M/L arguments do produce
their endpoints. -/
theorem C6_path_extraction :
    (∀ d : String, (∀ c ∈ d.data, c.isDigit = false) → pathPoints d = []) ∧
      pathPoints "M 1,2 L 3,4" = [⟨1, 2⟩, ⟨3, 4⟩] ∧
      pathPoints "C 7,8" = [⟨7, 8⟩] ∧
      ∀ (s : Shape) (d : String), s.geom = .path d →
        getElementCoordinates s = pathPoints d := by
  refine ⟨pathPoints_no_digits, ?_, ?_, ?_⟩
  · have h1 : scanAll pairRx "M 1,2 L 3,4".data =
        [['M', ' ', '1', ',', '2'], ['L', ' ', '3', ',', '4']] := by decide
    have h2 : scanAll numRx ['M', ' ', '1', ',', '2'] = [['1'], ['2']] := by decide
    have h3 : scanAll numRx ['L', ' ', '3', ',', '4'] = [['3'], ['4']] := by decide
    have p1 : parseNum ['1'] = 1 := by
      rw [parseNum_digits '1' [] (by decide) (by decide)]
      decide
    have p2 : parseNum ['2'] = 2 := by
      rw [parseNum_digits '2' [] (by decide) (by decide)]
      decide
    have p3 : parseNum ['3'] = 3 := by
      rw [parseNum_digits '3' [] (by decide) (by decide)]
      decide
    have p4 : parseNum ['4'] = 4 := by
      rw [parseNum_digits '4' [] (by decide) (by decide)]
      decide
    simp [pathPoints, h1, h2, h3, p1, p2, p3, p4]
  · have h1 : scanAll pairRx "C 7,8".data = [[' ', '7', ',', '8']] := by decide
    have h2 : scanAll numRx [' ', '7', ',', '8'] = [['7'], ['8']] := by decide
    have p7 : parseNum ['7'] = 7 := by
      rw [parseNum_digits '7' [] (by decide) (by decide)]
      decide
    have p8 : parseNum ['8'] = 8 := by
      rw [parseNum_digits '8' [] (by decide) (by decide)]
      decide
    simp [pathPoints, h1, h2, p7, p8]
  · intro s d hd
    simp [getElementCoordinates, hd]

/-- Witness for C6 (amended) at a digit-free path datum. -/
theorem C6_path_extraction_witness :
    (∀ c ∈ "Z z".data, c.isDigit = false) ∧ pathPoints "Z z" = [] :=
  ⟨by decide, C6_path_extraction.1 "Z z" (by decide)⟩

/-- C7: with the additive modifier the updated highlight set is exactly
the union of the previous highlights and the new net's shapes, the
previous highlights stay (as a prefix, so none is removed), nothing is
duplicated; without the modifier the previous highlights are replaced by
the new net. -/
theorem C7_multi_select (prev netElements : List Shape) :
    (∀ x : Shape,
        x ∈ updateHighlights true prev netElements ↔ x ∈ prev ∨ x ∈ netElements) ∧
      (∃ t, updateHighlights true prev netElements = prev ++ t) ∧
      (prev.Nodup → (updateHighlights true prev netElements).Nodup) ∧
      (netElements.Nodup → updateHighlights false prev netElements = netElements) := by
  refine ⟨?_, ?_, ?_, ?_⟩
  · intro x
    exact updFold_mem netElements prev x
  · exact updFold_suffix netElements prev
  · intro h
    exact updFold_nodup netElements prev h
  · intro h
    show List.foldl (fun acc el => if el ∈ acc then acc else acc ++ [el]) [] netElements =
      netElements
    rw [updFold_filter netElements [] h]
    simp

/-- Witness for C7 at two concrete one-element highlight sets. -/
theorem C7_multi_select_witness :
    ([⟨0, "a", Geom.line 0 0 1 0, none⟩] : List Shape).Nodup ∧
      ([⟨1, "b", Geom.line 2 0 3 0, none⟩] : List Shape).Nodup ∧
      (updateHighlights true [⟨0, "a", Geom.line 0 0 1 0, none⟩]
          [⟨1, "b", Geom.line 2 0 3 0, none⟩]).Nodup ∧
      updateHighlights false [⟨0, "a", Geom.line 0 0 1 0, none⟩]
          [⟨1, "b", Geom.line 2 0 3 0, none⟩] =
        [⟨1, "b", Geom.line 2 0 3 0, none⟩] :=
  ⟨by simp, by simp,
    (C7_multi_select [⟨0, "a", Geom.line 0 0 1 0, none⟩] [⟨1, "b", Geom.line 2 0 3 0, none⟩]).2.2.1
      (by simp),
    (C7_multi_select [⟨0, "a", Geom.line 0 0 1 0, none⟩] [⟨1, "b", Geom.line 2 0 3 0, none⟩]).2.2.2
      (by simp)⟩
